import Mathlib

/-!
Verification of `plugins/modules/nios_extensible_attribute.py`.

Python dictionaries are embedded as association lists with string keys; a value that may be
Python `None` is an `Option`.  The `options` helper, the constant argument specification of
`main`, and the delegation to the external client are translated directly from the source.
Collaborators that are not part of the source file (the `AnsibleModule` argument validation of
ansible-core, `normalize_ib_spec` and `WapiModule` from the collection's module_utils) are
modelled from the specification and marked as such in their doc comments.
-/

namespace NiosExtensibleAttribute

/-- Scalar parameter values. -/
inductive JPrim where
  | s (v : String)
  | i (v : Int)
  | b (v : Bool)
deriving DecidableEq, Repr

/-- An element of a list-typed parameter: a scalar or a flat dictionary, which is all the
module's parameters carry (`list_values` is a list of dictionaries of scalars). -/
inductive JItem where
  | p (v : JPrim)
  | d (fields : List (String × JPrim))
deriving DecidableEq, Repr

/-- JSON-like parameter values, as carried in a module parameter dictionary. -/
inductive JVal where
  | s (v : String)
  | i (v : Int)
  | b (v : Bool)
  | l (vs : List JItem)
  | d (fields : List (String × JPrim))
deriving DecidableEq, Repr

/-- Python `k in dict` on an association list. -/
def hasKey {α : Type} (k : String) (d : List (String × α)) : Bool :=
  d.any (fun kv => kv.1 == k)

/-- The comprehension `dict([(k, v) for k, v in iteritems(item) if v is not None])` in
`options`: drop every key whose value is `None`, keep the rest unchanged. -/
def stripNone (item : List (String × Option JVal)) : List (String × JVal) :=
  item.filterMap (fun kv => kv.2.map (fun v => (kv.1, v)))

/-- The message passed to `module.fail_json` in `options`. -/
def optionsMsg : String := "one of `name` or `num` is required for option value"

/-- The module-level `options` function: strip `None` values from every entry and require that
each stripped entry still carries `name` or `num`; `fail_json` halts execution, embedded as
`Except.error`. -/
def options : List (List (String × Option JVal)) → Except String (List (List (String × JVal)))
  | [] => .ok []
  | item :: rest =>
    let opt := stripNone item
    if !hasKey "name" opt && !hasKey "num" opt then
      .error optionsMsg
    else
      (options rest).map (fun os => opt :: os)

/-- One entry of an Ansible argument specification, keeping the fields used by this module.
`ftype` is the declaration's `type` (a Lean keyword), `dflt` its `default`. -/
structure FieldSpec where
  ftype : String
  required : Bool := false
  dflt : Option String := none
  choices : Option (List String) := none
  ib_req : Bool := false
  elements : Option String := none
deriving DecidableEq, Repr

/-- The `ib_spec` dictionary declared in `main`, field for field. -/
def ib_spec : List (String × FieldSpec) :=
  [("comment", { ftype := "str" }),
   ("default_value", { ftype := "str" }),
   ("list_values", { ftype := "list", elements := some "dict" }),
   ("max", { ftype := "str" }),
   ("min", { ftype := "str" }),
   ("name", { ftype := "str", required := true, ib_req := true }),
   ("type", { ftype := "str", required := true, dflt := some "STRING",
              choices := some ["DATE", "EMAIL", "ENUM", "INTEGER", "STRING", "URL"] })]

/-- Modelled from the spec: `normalize_ib_spec` lives in the collection's module_utils, which is
not part of this fragment.  The spec says the declared schema fields are composed unchanged with
the framework fields, so the model keeps every declared key and merely clears the
collection-internal `ib_req` marker. -/
def normalize_ib_spec (spec : List (String × FieldSpec)) : List (String × FieldSpec) :=
  spec.map (fun kv => (kv.1, { kv.2 with ib_req := false }))

/-- Modelled from the spec: `WapiModule.provider_spec` from the collection's module_utils, the
connection provider (host/credentials) field supplied by the external framework. -/
def provider_spec : List (String × FieldSpec) :=
  [("provider", { ftype := "dict" })]

/-- Python `dict.update`: keys already present keep their place and take the new value, new keys
are appended. -/
def dictUpdate (d e : List (String × FieldSpec)) : List (String × FieldSpec) :=
  d.map (fun kv =>
    match e.lookup kv.1 with
    | some v => (kv.1, v)
    | none => kv) ++ e.filter (fun kv => !hasKey kv.1 d)

/-- The `argument_spec` built in `main`: provider and state, updated with the normalized
`ib_spec` and with the provider spec of the client. -/
def argument_spec : List (String × FieldSpec) :=
  dictUpdate
    (dictUpdate
      [("provider", { ftype := "dict", required := true }),
       ("state", { ftype := "str", dflt := some "present",
                   choices := some ["present", "absent"] })]
      (normalize_ib_spec ib_spec))
    provider_spec

/-- The defaults an argument specification contributes for parameters the caller omitted. -/
def fillDefaults (spec : List (String × FieldSpec)) (params : List (String × JVal)) :
    List (String × JVal) :=
  spec.filterMap (fun kv =>
    if hasKey kv.1 params then none
    else kv.2.dflt.map (fun d => (kv.1, JVal.s d)))

/-- Modelled from the spec: the `AnsibleModule` argument validation of ansible-core, which is
not part of this fragment.  Per the spec, required parameters must be supplied, omitted
parameters with a declared default receive it, and a supplied string value of a parameter with
declared choices must be one of them; a violation fails before any delegation. -/
def validateParams (spec : List (String × FieldSpec)) (params : List (String × JVal)) :
    Except String (List (String × JVal)) :=
  if spec.any (fun kv => kv.2.required && !hasKey kv.1 params) then
    .error "missing required arguments"
  else
    let filled := params ++ fillDefaults spec params
    if spec.any (fun kv =>
        match kv.2.choices, filled.lookup kv.1 with
        | some cs, some (JVal.s v) => !cs.contains v
        | _, _ => false) then
      .error "value must be one of the declared choices"
    else
      .ok filled

/-- The body of `main`: validate the parameters against `argument_spec` (inside the
`AnsibleModule` constructor), call `wapi.run('extensibleattributedef', ib_spec)` on the external
client, and hand its result to `module.exit_json` unchanged.  The client is a parameter: its
code is outside this fragment. -/
def runMain {α : Type}
    (run : String → List (String × FieldSpec) → List (String × JVal) → α)
    (params : List (String × JVal)) : Except String α :=
  match validateParams argument_spec params with
  | .error e => .error e
  | .ok validated => .ok (run "extensibleattributedef" ib_spec validated)

/-- `main` with the module-level `options` function in scope: the body of `main` never mentions
it, so the wrapper ignores the argument exactly as the source does. -/
def runMainWith {α : Type}
    (_optFn : List (List (String × Option JVal)) → Except String (List (List (String × JVal))))
    (run : String → List (String × FieldSpec) → List (String × JVal) → α)
    (params : List (String × JVal)) : Except String α :=
  runMain run params

/-- Modelled from the spec: the external WAPI reconciliation client (`WapiModule.run`, in the
collection's module_utils, outside this fragment).  It compares the desired object against the
current remote object of the same name and issues create, update or delete accordingly,
reporting whether anything changed. -/
def wapiRunModel (state : String) (name : String) (desired : List (String × JVal))
    (remote : List (String × List (String × JVal))) :
    Bool × List (String × List (String × JVal)) :=
  if state = "absent" then
    if hasKey name remote then
      (true, remote.filter (fun kv => kv.1 != name))
    else
      (false, remote)
  else
    match remote.lookup name with
    | some current =>
      if current = desired then
        (false, remote)
      else
        (true, remote.map (fun kv => if kv.1 = name then (name, desired) else kv))
    | none => (true, (name, desired) :: remote)

/-- A concrete ENUM parameter set, used as a witness input. -/
def enumParams : List (String × JVal) :=
  [("name", JVal.s "a"), ("type", JVal.s "ENUM"),
   ("list_values", JVal.l [JItem.d [("value", JPrim.s "one")],
     JItem.d [("value", JPrim.s "two")]])]

/-- What validation makes of `enumParams`: the same fields plus the defaulted state. -/
def enumValidated : List (String × JVal) :=
  enumParams ++ [("state", JVal.s "present")]

/-! Helper lemmas about association-list lookup. -/

theorem lookup_cons_pair {α : Type} (k a : String) (b : α) (tl : List (String × α)) :
    ((a, b) :: tl).lookup k = if k == a then some b else tl.lookup k := by
  cases h : (k == a) with
  | true => simp [List.lookup, h]
  | false => simp [List.lookup, h]

theorem hasKey_cons {α : Type} (k a : String) (b : α) (tl : List (String × α)) :
    hasKey k ((a, b) :: tl) = ((a == k) || hasKey k tl) := by
  simp [hasKey]

theorem lookup_eq_none_of_not_hasKey {α : Type} {k : String} {l : List (String × α)}
    (h : hasKey k l = false) : l.lookup k = none := by
  induction l with
  | nil => simp [List.lookup]
  | cons hd tl ih =>
    rcases hd with ⟨a, b⟩
    rw [hasKey_cons] at h
    rcases Bool.or_eq_false_iff.mp h with ⟨h1, h2⟩
    have hne : (k == a) = false :=
      beq_eq_false_iff_ne.mpr (Ne.symm (beq_eq_false_iff_ne.mp h1))
    rw [lookup_cons_pair, hne]
    simpa using ih h2

theorem lookup_append_of_some {α : Type} {l₁ : List (String × α)} {k : String} {v : α}
    (l₂ : List (String × α)) (h : l₁.lookup k = some v) : (l₁ ++ l₂).lookup k = some v := by
  induction l₁ with
  | nil => simp [List.lookup] at h
  | cons hd tl ih =>
    rcases hd with ⟨a, b⟩
    rw [lookup_cons_pair] at h
    rw [List.cons_append, lookup_cons_pair]
    cases hk : (k == a) with
    | true =>
      rw [hk] at h
      simp at h ⊢
      exact h
    | false =>
      rw [hk] at h
      simp at h ⊢
      exact ih h

theorem lookup_append_of_none {α : Type} {l₁ : List (String × α)} {k : String}
    (l₂ : List (String × α)) (h : l₁.lookup k = none) : (l₁ ++ l₂).lookup k = l₂.lookup k := by
  induction l₁ with
  | nil => simp
  | cons hd tl ih =>
    rcases hd with ⟨a, b⟩
    rw [lookup_cons_pair] at h
    rw [List.cons_append, lookup_cons_pair]
    cases hk : (k == a) with
    | true =>
      rw [hk] at h
      simp at h
    | false =>
      rw [hk] at h
      simp only [Bool.false_eq_true, if_false] at h ⊢
      exact ih h

theorem lookup_fillDefaults {spec : List (String × FieldSpec)} {params : List (String × JVal)}
    {k : String} {fs : FieldSpec} {d : String}
    (hnd : (spec.map Prod.fst).Nodup) (hmem : (k, fs) ∈ spec) (hdf : fs.dflt = some d)
    (hk : hasKey k params = false) :
    (fillDefaults spec params).lookup k = some (JVal.s d) := by
  induction spec with
  | nil => cases hmem
  | cons e tl ih =>
    rcases e with ⟨k1, fs1⟩
    rw [List.map_cons, List.nodup_cons] at hnd
    rcases hnd with ⟨hk1, hndtl⟩
    rcases List.mem_cons.mp hmem with heq | htl
    · injection heq with h1 h2
      subst h1
      subst h2
      simp only [fillDefaults, List.filterMap_cons]
      rw [hk]
      simp only [Bool.false_eq_true, if_false, hdf, Option.map_some']
      rw [lookup_cons_pair]
      simp
    · have hne : k1 ≠ k := by
        intro he
        exact hk1 (he ▸ List.mem_map.mpr ⟨(k, fs), htl, rfl⟩)
      have hbe : (k == k1) = false := beq_eq_false_iff_ne.mpr (Ne.symm hne)
      have ihr := ih hndtl htl
      simp only [fillDefaults, List.filterMap_cons] at ihr ⊢
      cases hkp : hasKey k1 params with
      | true => simpa [hkp] using ihr
      | false =>
        cases hdf1 : fs1.dflt with
        | none => simpa [hkp, hdf1] using ihr
        | some d1 =>
          simp only [hkp, Bool.false_eq_true, if_false, hdf1, Option.map_some']
          rw [lookup_cons_pair, hbe]
          simpa using ihr

theorem lookup_map_replace {β : Type} {remote : List (String × β)} {nm : String} {cur : β}
    (d : β) (h : remote.lookup nm = some cur) :
    (remote.map (fun kv => if kv.1 = nm then (nm, d) else kv)).lookup nm = some d := by
  induction remote with
  | nil => simp [List.lookup] at h
  | cons e tl ih =>
    rcases e with ⟨a, b⟩
    rw [lookup_cons_pair] at h
    by_cases ha : a = nm
    · subst ha
      simp only [List.map_cons, if_pos rfl]
      rw [lookup_cons_pair]
      simp
    · have hbe : (nm == a) = false := beq_eq_false_iff_ne.mpr (Ne.symm ha)
      rw [hbe] at h
      simp only [Bool.false_eq_true, if_false] at h
      simp only [List.map_cons, if_neg ha]
      rw [lookup_cons_pair, hbe]
      simpa using ih h

theorem validate_ok_shape {spec : List (String × FieldSpec)} {params out : List (String × JVal)}
    (h : validateParams spec params = .ok out) :
    out = params ++ fillDefaults spec params := by
  simp only [validateParams] at h
  split at h
  · cases h
  · split at h
    · cases h
    · injection h with h
      exact h.symm

theorem validate_ok_choices {spec : List (String × FieldSpec)} {params out : List (String × JVal)}
    {k : String} {fs : FieldSpec} {cs : List String} {v : String}
    (h : validateParams spec params = .ok out) (hmem : (k, fs) ∈ spec)
    (hcs : fs.choices = some cs) (hlv : out.lookup k = some (JVal.s v)) :
    cs.contains v = true := by
  have hshape := validate_ok_shape h
  subst hshape
  simp only [validateParams] at h
  split at h
  · cases h
  · split at h
    · cases h
    · next h2 =>
      have h2f : (spec.any fun kv =>
          match kv.2.choices, (params ++ fillDefaults spec params).lookup kv.1 with
          | some cs, some (JVal.s v) => !cs.contains v
          | _, _ => false) = false := by
        cases hany : (spec.any fun kv =>
            match kv.2.choices, (params ++ fillDefaults spec params).lookup kv.1 with
            | some cs, some (JVal.s v) => !cs.contains v
            | _, _ => false) with
        | true => exact absurd hany h2
        | false => rfl
      rw [List.any_eq_false] at h2f
      have h3 := h2f _ hmem
      simp only [hcs, hlv] at h3
      simpa using h3

theorem validate_ok_required {spec : List (String × FieldSpec)} {params out : List (String × JVal)}
    {k : String} {fs : FieldSpec}
    (h : validateParams spec params = .ok out) (hmem : (k, fs) ∈ spec)
    (hreq : fs.required = true) : hasKey k params = true := by
  simp only [validateParams] at h
  split at h
  · cases h
  · next h1 =>
    have h1f : (spec.any fun kv => kv.2.required && !hasKey kv.1 params) = false := by
      cases hany : (spec.any fun kv => kv.2.required && !hasKey kv.1 params) with
      | true => exact absurd hany h1
      | false => rfl
    rw [List.any_eq_false] at h1f
    have h3 := h1f _ hmem
    simp only [hreq, Bool.true_and, Bool.not_eq_true'] at h3
    simpa using h3

theorem wapiRun_present_lookup (nm : String) (d : List (String × JVal))
    (remote : List (String × List (String × JVal))) :
    ((wapiRunModel "present" nm d remote).2).lookup nm = some d := by
  unfold wapiRunModel
  rw [if_neg (by decide : ¬("present" = "absent"))]
  cases h : remote.lookup nm with
  | none =>
    simp only [h]
    rw [lookup_cons_pair]
    simp
  | some current =>
    by_cases hc : current = d
    · subst hc
      simp [h]
    · simp only [h, if_neg hc]
      exact lookup_map_replace d h

theorem hasKey_stripNone_sub {item : List (String × Option JVal)} {k : String}
    (h : hasKey k (stripNone item) = true) : k ∈ item.map Prod.fst := by
  rcases List.any_eq_true.mp h with ⟨kv, hmem, hk⟩
  rcases List.mem_filterMap.mp hmem with ⟨⟨k0, ov⟩, hmem0, hf⟩
  cases ov with
  | none => cases hf
  | some v =>
    injection hf with hf
    subst hf
    have hk0 : k0 = k := by simpa using hk
    subst hk0
    exact List.mem_map.mpr ⟨(k0, some v), hmem0, rfl⟩

/-! Theorems for the claims. -/

/-- C1: an option entry carrying neither a non-`None` `name` nor a non-`None` `num` makes the
`options` normalizer halt at `fail_json` with the validation message, before anything is
delegated to the external client. -/
theorem options_fails_without_name_or_num
    (entries : List (List (String × Option JVal))) (item : List (String × Option JVal))
    (hmem : item ∈ entries)
    (hname : hasKey "name" (stripNone item) = false)
    (hnum : hasKey "num" (stripNone item) = false) :
    options entries = .error optionsMsg := by
  induction entries with
  | nil => cases hmem
  | cons e tl ih =>
    rcases List.mem_cons.mp hmem with heq | htl
    · subst heq
      simp only [options]
      rw [hname, hnum]
      simp
    · simp only [options]
      cases hcond : (!hasKey "name" (stripNone e) && !hasKey "num" (stripNone e)) with
      | true => simp
      | false =>
        simp only [Bool.false_eq_true, if_false]
        rw [ih htl]
        rfl

/-- C1 witness: a concrete entry with only a `value` field is rejected. -/
theorem options_fails_without_name_or_num_witness :
    ([("value", some (JVal.s "x"))] ∈ [[(("value" : String), some (JVal.s "x"))]]) ∧
    hasKey "name" (stripNone [("value", some (JVal.s "x"))]) = false ∧
    hasKey "num" (stripNone [("value", some (JVal.s "x"))]) = false ∧
    options [[("value", some (JVal.s "x"))]] = .error optionsMsg :=
  ⟨List.mem_singleton.mpr rfl, by decide, by decide,
   options_fails_without_name_or_num _ _ (List.mem_singleton.mpr rfl) (by decide) (by decide)⟩

/-- C2: `main` never calls the `options` normalizer: its argument spec carries no `options`
field, and its body does not depend on the normalizer at all, so the `fail_json` branch inside
`options` is unreachable from any module run. -/
theorem main_never_calls_options :
    hasKey "options" argument_spec = false ∧
    ∀ (α : Type)
      (f g : List (List (String × Option JVal)) → Except String (List (List (String × JVal))))
      (run : String → List (String × FieldSpec) → List (String × JVal) → α)
      (params : List (String × JVal)),
      runMainWith f run params = runMainWith g run params :=
  ⟨by decide, fun _ _ _ _ _ => rfl⟩

/-- C3: the normalizer strips exactly the `None`-valued fields: a successful run returns the
entrywise strip of its input; within one entry (keys unique, as in a Python dict) a key valued
`None` is absent from the output and a key with a non-`None` value keeps it unchanged. -/
theorem options_strips_none_fields :
    (∀ entries res, options entries = .ok res → res = entries.map stripNone) ∧
    (∀ (item : List (String × Option JVal)),
      (item.map Prod.fst).Nodup →
      (∀ k, (k, (none : Option JVal)) ∈ item → hasKey k (stripNone item) = false) ∧
      (∀ k v, (k, some v) ∈ item → (k, v) ∈ stripNone item)) := by
  constructor
  · intro entries
    induction entries with
    | nil =>
      intro res h
      simp only [options] at h
      injection h with h
      rw [← h]
      rfl
    | cons e tl ih =>
      intro res h
      simp only [options] at h
      split at h
      · cases h
      · cases htl : options tl with
        | error msg => rw [htl] at h; cases h
        | ok os =>
          rw [htl] at h
          simp only [Except.map] at h
          injection h with h
          rw [← h, List.map_cons, ih os htl]
  · intro item hnd
    constructor
    · intro k hmem
      cases hsk : hasKey k (stripNone item) with
      | false => rfl
      | true =>
        exfalso
        induction item with
        | nil => cases hmem
        | cons e tl ih2 =>
          rcases e with ⟨a, ov⟩
          rw [List.map_cons, List.nodup_cons] at hnd
          rcases List.mem_cons.mp hmem with heq | htlm
          · injection heq with h1 h2
            subst h1
            subst h2
            simp only [stripNone, List.filterMap_cons, Option.map_none'] at hsk
            exact hnd.1 (hasKey_stripNone_sub hsk)
          · have hka : k ∈ tl.map Prod.fst :=
              List.mem_map.mpr ⟨(k, none), htlm, rfl⟩
            have hne : a ≠ k := fun he => hnd.1 (he ▸ hka)
            cases ov with
            | none =>
              simp only [stripNone, List.filterMap_cons, Option.map_none'] at hsk
              exact ih2 hnd.2 htlm hsk
            | some v =>
              simp only [stripNone, List.filterMap_cons, Option.map_some'] at hsk
              rw [hasKey_cons] at hsk
              rw [beq_eq_false_iff_ne.mpr hne] at hsk
              simp only [Bool.false_or] at hsk
              exact ih2 hnd.2 htlm hsk
    · intro k v hmem
      exact List.mem_filterMap.mpr ⟨(k, some v), hmem, rfl⟩

/-- C3 witness: on a concrete entry the `None`-valued `value` field is dropped and the
non-`None` `name` field survives unchanged. -/
theorem options_strips_none_fields_witness :
    hasKey "value"
      (stripNone [("name", some (JVal.s "x")), ("value", (none : Option JVal))]) = false ∧
    ("name", JVal.s "x") ∈ stripNone [("name", some (JVal.s "x")), ("value", none)] :=
  ⟨(options_strips_none_fields.2 _ (by decide)).1 "value" (by simp),
   (options_strips_none_fields.2 _ (by decide)).2 "name" (JVal.s "x") (by simp)⟩

/-- C4: the result structure the external client's `run` produces is returned verbatim:
whenever validation succeeds, `main` passes `run "extensibleattributedef" ib_spec` applied to
the validated parameters to `exit_json` with no field added, removed, or modified — the very
value, for every possible client. -/
theorem main_forwards_run_result (α : Type)
    (run : String → List (String × FieldSpec) → List (String × JVal) → α)
    (params validated : List (String × JVal))
    (h : validateParams argument_spec params = .ok validated) :
    runMain run params = .ok (run "extensibleattributedef" ib_spec validated) := by
  simp only [runMain, h]

/-- C4 witness: a concrete valid parameter set, with a concrete client. -/
theorem main_forwards_run_result_witness :
    validateParams argument_spec
      [("name", JVal.s "a"), ("type", JVal.s "STRING"), ("provider", JVal.d [])] =
      .ok [("name", JVal.s "a"), ("type", JVal.s "STRING"), ("provider", JVal.d []),
           ("state", JVal.s "present")] ∧
    runMain (fun _ _ _ => (0 : Nat))
      [("name", JVal.s "a"), ("type", JVal.s "STRING"), ("provider", JVal.d [])] = .ok 0 :=
  ⟨by rfl, main_forwards_run_result Nat (fun _ _ _ => 0) _ _ (by rfl)⟩

/-- C5: `type` accepts exactly {DATE, EMAIL, ENUM, INTEGER, STRING, URL}: that list is the
declared choice set of `type`, and any supplied value outside it makes `main` fail at
validation, never calling the external client. -/
theorem type_restricted_to_choices :
    ((argument_spec.lookup "type").map FieldSpec.choices =
      some (some ["DATE", "EMAIL", "ENUM", "INTEGER", "STRING", "URL"])) ∧
    ∀ (α : Type) (run : String → List (String × FieldSpec) → List (String × JVal) → α)
      (params : List (String × JVal)) (v : String),
      params.lookup "type" = some (JVal.s v) →
      (["DATE", "EMAIL", "ENUM", "INTEGER", "STRING", "URL"] : List String).contains v = false →
      ∃ msg, runMain run params = .error msg := by
  refine ⟨by decide, ?_⟩
  intro α run params v hlv hnotin
  cases hval : validateParams argument_spec params with
  | error msg => exact ⟨msg, by simp only [runMain, hval]⟩
  | ok out =>
    exfalso
    have hout : out.lookup "type" = some (JVal.s v) := by
      rw [validate_ok_shape hval]
      exact lookup_append_of_some _ hlv
    have hmem : ("type", ({ ftype := "str", required := true, dflt := some "STRING",
                            choices := some ["DATE", "EMAIL", "ENUM", "INTEGER", "STRING",
                                             "URL"] } : FieldSpec)) ∈ argument_spec := by
      decide
    have hc := validate_ok_choices hval hmem rfl hout
    rw [hnotin] at hc
    cases hc

/-- C5 witness: a concrete parameter set with `type=BOOLEAN` is rejected at validation. -/
theorem type_restricted_to_choices_witness :
    ([("name", JVal.s "a"), ("type", JVal.s "BOOLEAN")].lookup "type" =
      some (JVal.s "BOOLEAN")) ∧
    ((["DATE", "EMAIL", "ENUM", "INTEGER", "STRING", "URL"] : List String).contains "BOOLEAN" =
      false) ∧
    ∃ msg, runMain (fun _ _ _ => (0 : Nat))
      [("name", JVal.s "a"), ("type", JVal.s "BOOLEAN")] = .error msg :=
  ⟨by rfl, by rfl,
   type_restricted_to_choices.2 Nat (fun _ _ _ => 0) _ "BOOLEAN" (by rfl) (by rfl)⟩

/-- C6: `name` and `type` are required: a parameter set that omits `name`, or one that omits
`type`, makes `main` fail at validation before any delegation to the client. -/
theorem name_and_type_required (α : Type)
    (run : String → List (String × FieldSpec) → List (String × JVal) → α)
    (params : List (String × JVal))
    (h : hasKey "name" params = false ∨ hasKey "type" params = false) :
    ∃ msg, runMain run params = .error msg := by
  have hreq : (argument_spec.any fun kv => kv.2.required && !hasKey kv.1 params) = true := by
    rcases h with h | h
    · exact List.any_eq_true.mpr
        ⟨("name", { ftype := "str", required := true }), by decide, by simp [h]⟩
    · exact List.any_eq_true.mpr
        ⟨("type", { ftype := "str", required := true, dflt := some "STRING",
                    choices := some ["DATE", "EMAIL", "ENUM", "INTEGER", "STRING", "URL"] }),
         by decide, by simp [h]⟩
  exact ⟨"missing required arguments", by simp [runMain, validateParams, hreq]⟩

/-- C6 witness: omitting `name`, and omitting `type`, each fail on a concrete input. -/
theorem name_and_type_required_witness :
    (hasKey "name" [("type", JVal.s "STRING")] = false ∧
      ∃ msg, runMain (fun _ _ _ => (0 : Nat)) [("type", JVal.s "STRING")] = .error msg) ∧
    (hasKey "type" [("name", JVal.s "a")] = false ∧
      ∃ msg, runMain (fun _ _ _ => (0 : Nat)) [("name", JVal.s "a")] = .error msg) :=
  ⟨⟨by rfl, name_and_type_required Nat (fun _ _ _ => 0) _ (Or.inl (by rfl))⟩,
   ⟨by rfl, name_and_type_required Nat (fun _ _ _ => 0) _ (Or.inr (by rfl))⟩⟩

/-- C7: with `type=ENUM` and a non-empty `list_values`, the validated parameter set handed to
the external client carries exactly the supplied list entries, unchanged and in order, and the
client's result is returned as-is. -/
theorem enum_list_values_verbatim (α : Type)
    (run : String → List (String × FieldSpec) → List (String × JVal) → α)
    (params validated : List (String × JVal)) (lv : List JItem)
    (htype : params.lookup "type" = some (JVal.s "ENUM"))
    (hlv : params.lookup "list_values" = some (JVal.l lv))
    (hne : lv ≠ [])
    (hval : validateParams argument_spec params = .ok validated) :
    runMain run params = .ok (run "extensibleattributedef" ib_spec validated) ∧
    validated.lookup "list_values" = some (JVal.l lv) := by
  constructor
  · simp only [runMain, hval]
  · rw [validate_ok_shape hval]
    exact lookup_append_of_some _ hlv

/-- C7 witness: a concrete ENUM parameter set with two list values. -/
theorem enum_list_values_verbatim_witness :
    (enumParams.lookup "type" = some (JVal.s "ENUM")) ∧
    (validateParams argument_spec enumParams = .ok enumValidated) ∧
    (enumValidated.lookup "list_values" =
      some (JVal.l [JItem.d [("value", JPrim.s "one")], JItem.d [("value", JPrim.s "two")]])) :=
  ⟨by rfl, by rfl,
   (enum_list_values_verbatim Nat (fun _ _ _ => 0) enumParams enumValidated
     [JItem.d [("value", JPrim.s "one")], JItem.d [("value", JPrim.s "two")]]
     (by rfl) (by rfl) (by simp) (by rfl)).2⟩

/-- C8: `state` accepts exactly present and absent and defaults to present: that pair is the
declared choice set, a supplied `state` outside it makes `main` fail at validation, and a
parameter set without `state` is validated to one carrying state=present. -/
theorem state_choices_and_default :
    ((argument_spec.lookup "state").map (fun fs => (fs.choices, fs.dflt)) =
      some (some ["present", "absent"], some "present")) ∧
    (∀ (α : Type) (run : String → List (String × FieldSpec) → List (String × JVal) → α)
      (params : List (String × JVal)) (v : String),
      params.lookup "state" = some (JVal.s v) →
      (["present", "absent"] : List String).contains v = false →
      ∃ msg, runMain run params = .error msg) ∧
    (∀ (params out : List (String × JVal)),
      hasKey "state" params = false →
      validateParams argument_spec params = .ok out →
      out.lookup "state" = some (JVal.s "present")) := by
  refine ⟨by decide, ?_, ?_⟩
  · intro α run params v hlv hnotin
    cases hval : validateParams argument_spec params with
    | error msg => exact ⟨msg, by simp only [runMain, hval]⟩
    | ok out =>
      exfalso
      have hout : out.lookup "state" = some (JVal.s v) := by
        rw [validate_ok_shape hval]
        exact lookup_append_of_some _ hlv
      have hmem : ("state", ({ ftype := "str", dflt := some "present",
                               choices := some ["present", "absent"] } : FieldSpec)) ∈
          argument_spec := by decide
      have hc := validate_ok_choices hval hmem rfl hout
      rw [hnotin] at hc
      cases hc
  · intro params out hst hval
    rw [validate_ok_shape hval,
      lookup_append_of_none _ (lookup_eq_none_of_not_hasKey hst)]
    exact @lookup_fillDefaults argument_spec params "state"
      { ftype := "str", dflt := some "present", choices := some ["present", "absent"] }
      "present" (by decide) (by decide) rfl hst

/-- C8 witness: a concrete `state=deleted` is rejected, and a concrete parameter set without
`state` validates to one carrying state=present. -/
theorem state_choices_and_default_witness :
    (([("name", JVal.s "a"), ("type", JVal.s "STRING"),
       ("state", JVal.s "deleted")].lookup "state" = some (JVal.s "deleted")) ∧
      ∃ msg, runMain (fun _ _ _ => (0 : Nat))
        [("name", JVal.s "a"), ("type", JVal.s "STRING"),
         ("state", JVal.s "deleted")] = .error msg) ∧
    (hasKey "state" [("name", JVal.s "a"), ("type", JVal.s "STRING")] = false ∧
      [("name", JVal.s "a"), ("type", JVal.s "STRING"),
       ("state", JVal.s "present")].lookup "state" = some (JVal.s "present")) :=
  ⟨⟨by rfl,
    state_choices_and_default.2.1 Nat (fun _ _ _ => 0)
      [("name", JVal.s "a"), ("type", JVal.s "STRING"), ("state", JVal.s "deleted")]
      "deleted" (by rfl) (by rfl)⟩,
   ⟨by rfl,
    state_choices_and_default.2.2 [("name", JVal.s "a"), ("type", JVal.s "STRING")]
      [("name", JVal.s "a"), ("type", JVal.s "STRING"), ("state", JVal.s "present")]
      (by rfl) (by rfl)⟩⟩

/-- C9: reconciliation with state=present is idempotent: running the modelled client twice with
the same desired object leaves the second run reporting changed=false, whatever the initial
remote state (contract of the delegated client, modelled from the spec). -/
theorem present_twice_not_changed (nm : String) (desired : List (String × JVal))
    (remote : List (String × List (String × JVal))) :
    (wapiRunModel "present" nm desired (wapiRunModel "present" nm desired remote).2).1 =
      false := by
  have h := wapiRun_present_lookup nm desired remote
  set s1 := (wapiRunModel "present" nm desired remote).2 with hs1
  simp only [wapiRunModel]
  rw [if_neg (by decide : ¬("present" = "absent"))]
  rw [h]
  simp

/-- C10: `main` always calls the client with the object type `extensibleattributedef` and the
fixed `ib_spec` schema, whose key set is exactly comment, default_value, list_values, max, min,
name, type — a constant independent of every input parameter. -/
theorem run_called_with_fixed_schema :
    (ib_spec.map Prod.fst =
      ["comment", "default_value", "list_values", "max", "min", "name", "type"]) ∧
    ∀ (α : Type) (run : String → List (String × FieldSpec) → List (String × JVal) → α)
      (params validated : List (String × JVal)),
      validateParams argument_spec params = .ok validated →
      runMain run params = .ok (run "extensibleattributedef" ib_spec validated) := by
  refine ⟨rfl, ?_⟩
  intro α run params validated h
  simp only [runMain, h]

/-- C10 witness: a concrete run, showing the call at the fixed object type and schema. -/
theorem run_called_with_fixed_schema_witness :
    validateParams argument_spec
      [("name", JVal.s "b"), ("type", JVal.s "INTEGER"), ("min", JVal.s "1")] =
      .ok [("name", JVal.s "b"), ("type", JVal.s "INTEGER"), ("min", JVal.s "1"),
           ("state", JVal.s "present")] ∧
    runMain (fun objType spec _ => (objType, spec))
      [("name", JVal.s "b"), ("type", JVal.s "INTEGER"), ("min", JVal.s "1")] =
      .ok ("extensibleattributedef", ib_spec) :=
  ⟨by rfl,
   run_called_with_fixed_schema.2 (String × List (String × FieldSpec))
     (fun objType spec _ => (objType, spec))
     [("name", JVal.s "b"), ("type", JVal.s "INTEGER"), ("min", JVal.s "1")]
     [("name", JVal.s "b"), ("type", JVal.s "INTEGER"), ("min", JVal.s "1"),
      ("state", JVal.s "present")] (by rfl)⟩

end NiosExtensibleAttribute
